import Mathlib

/-!
Verification of the trajectory-analysis pipeline of `AnalyseAll.py`
(repository AimTrajectoryStuff).

The Python code is shallowly embedded here:
- points are pairs of rationals (Python floats are rationals), distances are
  real numbers (`Real.sqrt` of the rational squared distance, matching
  `np.linalg.norm` on 2-vectors);
- `unwrap_deg`, `load_and_process` and `discrete_frechet` are translated
  function by function from the source;
- the distance-matrix double loop of `main` is embedded as the function
  giving the final contents of each cell;
- the silhouette validator (`silhouette_score` from sklearn, an external
  library) is modelled from the specification.
-/

namespace AimTraj

/-- A 2-D point, as produced by the Python code (floats, hence rationals). -/
abbrev Pt := ℚ × ℚ

/-- Euclidean distance in 2-D: `np.linalg.norm(P[i] - Q[j])` on 2-vectors. -/
noncomputable def pdist (p q : Pt) : ℝ :=
  Real.sqrt (((p.1 : ℝ) - (q.1 : ℝ)) ^ 2 + ((p.2 : ℝ) - (q.2 : ℝ)) ^ 2)

/-- The memoized recursion `c(i, j)` of `discrete_frechet`
(src/AnalyseAll.py lines 78-90).  The cache `ca` only stores already
computed values (all distances are `≥ 0 > -1`, the cache sentinel), so the
value computed equals the plain recurrence embedded here.  Out-of-range
indices (never reached by the source for in-range arguments) default to
the point `(0, 0)`. -/
noncomputable def frechet_c (P Q : List Pt) : ℕ → ℕ → ℝ
  | 0, 0 => pdist (P.getD 0 (0, 0)) (Q.getD 0 (0, 0))
  | i + 1, 0 =>
      max (frechet_c P Q i 0) (pdist (P.getD (i + 1) (0, 0)) (Q.getD 0 (0, 0)))
  | 0, j + 1 =>
      max (frechet_c P Q 0 j) (pdist (P.getD 0 (0, 0)) (Q.getD (j + 1) (0, 0)))
  | i + 1, j + 1 =>
      max (min (frechet_c P Q i (j + 1))
            (min (frechet_c P Q (i + 1) j) (frechet_c P Q i j)))
        (pdist (P.getD (i + 1) (0, 0)) (Q.getD (j + 1) (0, 0)))
  termination_by i j => i + j

/-- `discrete_frechet(P, Q)` (src/AnalyseAll.py lines 75-91): the value
`c(n-1, m-1)` of the memoized recursion. -/
noncomputable def discrete_frechet (P Q : List Pt) : ℝ :=
  frechet_c P Q (P.length - 1) (Q.length - 1)

/-- The reference recurrence `ca[i][j]` exactly as the specification
states it (spec section 4.2), to be compared with the implementation:
`ca[0][0] = dist(P[0],Q[0])`; `ca[i][0] = max(ca[i-1][0], dist(P[i],Q[0]))`;
`ca[0][j] = max(ca[0][j-1], dist(P[0],Q[j]))`;
`ca[i][j] = max(min(ca[i-1][j], ca[i][j-1], ca[i-1][j-1]), dist(P[i],Q[j]))`. -/
noncomputable def ca_spec (P Q : List Pt) : ℕ → ℕ → ℝ
  | 0, 0 => pdist (P.getD 0 (0, 0)) (Q.getD 0 (0, 0))
  | i + 1, 0 =>
      max (ca_spec P Q i 0) (pdist (P.getD (i + 1) (0, 0)) (Q.getD 0 (0, 0)))
  | 0, j + 1 =>
      max (ca_spec P Q 0 j) (pdist (P.getD 0 (0, 0)) (Q.getD (j + 1) (0, 0)))
  | i + 1, j + 1 =>
      max (min (ca_spec P Q i (j + 1))
            (min (ca_spec P Q (i + 1) j) (ca_spec P Q i j)))
        (pdist (P.getD (i + 1) (0, 0)) (Q.getD (j + 1) (0, 0)))
  termination_by i j => i + j

/-- The offset update of one step of `unwrap_deg`
(src/AnalyseAll.py lines 38-42): `diff = curr + offset - unwrapped[-1]`;
`offset -= 360` when `diff > 180`, `offset += 360` when `diff < -180`,
unchanged otherwise (strict comparisons). -/
def stepOffset (offset last curr : ℚ) : ℚ :=
  if curr + offset - last > 180 then offset - 360
  else if curr + offset - last < -180 then offset + 360
  else offset

/-- The loop of `unwrap_deg` (src/AnalyseAll.py lines 37-43): `last` is
`unwrapped[-1]`, `offset` the running offset, and the argument list the
remaining elements `angle_list[1:]` still to process. -/
def unwrapAux (last offset : ℚ) : List ℚ → List ℚ
  | [] => []
  | curr :: rest =>
      (curr + stepOffset offset last curr) ::
        unwrapAux (curr + stepOffset offset last curr) (stepOffset offset last curr) rest

/-- `unwrap_deg(angle_list)` (src/AnalyseAll.py lines 32-44). -/
def unwrap_deg (l : List ℚ) : List ℚ :=
  match l with
  | [] => []
  | a :: rest => a :: unwrapAux a 0 rest

/-- The CSV-reading loop of `load_and_process`
(src/AnalyseAll.py lines 48-56): for each row, `float(row['x'])` is
appended to `xs` when it parses (`none` models a parse failure), then
`float(row['y'])` to `ys` when it parses; a failure skips the rest of the
row (`except: continue`), so a row whose `x` parses but whose `y` does not
leaves `xs` one longer than `ys`. -/
def readRows : List (Option ℚ × Option ℚ) → List ℚ × List ℚ
  | [] => ([], [])
  | (none, _) :: rest => readRows rest
  | (some x, none) :: rest => ((readRows rest).1.cons x, (readRows rest).2)
  | (some x, some y) :: rest => ((readRows rest).1.cons x, (readRows rest).2.cons y)

/-- The quadrant flip of one axis (src/AnalyseAll.py lines 64-67):
negate every value when the final value is negative. -/
def flipIfNeg (l : List ℚ) : List ℚ :=
  if l.getLastD 0 < 0 then l.map (fun d => -d) else l

/-- The point sequence after zeroing at the origin and quadrant-flipping
(src/AnalyseAll.py lines 60-67): `zip(dx, dy)` of the two flipped delta
lists (Python's `zip` truncates to the shorter list). -/
def rawPoints (xs ys : List ℚ) (x0 y0 : ℚ) : List Pt :=
  (flipIfNeg (xs.map (fun x => x - x0))).zip (flipIfNeg (ys.map (fun y => y - y0)))

/-- The non-negative filter (src/AnalyseAll.py line 69):
`[(x, y) for x, y in zip(dx, dy) if x >= 0 and y >= 0]`. -/
def survivors (xs ys : List ℚ) (x0 y0 : ℚ) : List Pt :=
  (rawPoints xs ys x0 y0).filter (fun p => decide (0 ≤ p.1) && decide (0 ≤ p.2))

/-- Outcome of `load_and_process`: a trajectory, the `None` return
("insufficient data"), or an uncaught `IndexError` from indexing `xs[0]`
or `ys[0]` on an empty list. -/
inductive LoadResult where
  | traj : List Pt → LoadResult
  | insufficient : LoadResult
  | indexError : LoadResult
deriving DecidableEq

/-- `load_and_process` (src/AnalyseAll.py lines 47-72), taking the parsed
rows.  Returns `insufficient` (Python `None`) when fewer than 2 `x` values
were read or fewer than 2 points survive the filter; reaches `x0, y0 =
xs[0], ys[0]` with an empty `xs` or `ys` raises `IndexError`. -/
def load_and_process (rows : List (Option ℚ × Option ℚ)) : LoadResult :=
  let xs := (readRows rows).1
  if xs.length < 2 then .insufficient
  else
    let ys := unwrap_deg (readRows rows).2
    match xs.head?, ys.head? with
    | some x0, some y0 =>
        let pts := survivors xs ys x0 y0
        if pts.length < 2 then .insufficient else .traj pts
    | _, _ => .indexError

/-- The distance matrix built by `main` (src/AnalyseAll.py lines 126-130):
`D = np.zeros((N, N))`, then for every `i < j` the loop stores
`discrete_frechet(trajs[i], trajs[j])` into both `D[i, j]` and `D[j, i]`;
the diagonal keeps its initial 0.  This function gives the final contents
of cell `(i, j)`. -/
noncomputable def distMatrix (trajs : List (List Pt)) (i j : ℕ) : ℝ :=
  if i < j then discrete_frechet (trajs.getD i []) (trajs.getD j [])
  else if j < i then discrete_frechet (trajs.getD j []) (trajs.getD i [])
  else 0

/-- Collapse consecutive duplicate points (used to state the exact
characterization of a zero Fréchet distance). -/
def dedup : List Pt → List Pt
  | [] => []
  | [a] => [a]
  | a :: b :: l => if a = b then dedup (b :: l) else a :: dedup (b :: l)

/-- Number of distinct cluster labels in an assignment. -/
def numClusters (labels : List ℕ) : ℕ := labels.dedup.length

/-- Mean distance from item `i` to the items listed in `js`. -/
def meanDistTo (D : ℕ → ℕ → ℚ) (i : ℕ) (js : List ℕ) : ℚ :=
  (js.map (D i)).sum / (js.length : ℚ)

/-- Indices of the items carrying label `c`. -/
def membersOf (labels : List ℕ) (c : ℕ) : List ℕ :=
  (List.range labels.length).filter (fun j => labels.getD j 0 = c)

/-- Modelled from the spec: cohesion of item `i` — its mean distance to
the other members of its own cluster (spec section 4.5). -/
def cohesion (D : ℕ → ℕ → ℚ) (labels : List ℕ) (i : ℕ) : ℚ :=
  meanDistTo D i ((membersOf labels (labels.getD i 0)).filter (fun j => j ≠ i))

/-- Modelled from the spec: separation of item `i` — its mean distance to
the members of the nearest other cluster (spec section 4.5). -/
def separation (D : ℕ → ℕ → ℚ) (labels : List ℕ) (i : ℕ) : ℚ :=
  match (labels.dedup.filter (fun c => c ≠ labels.getD i 0)).map
      (fun c => meanDistTo D i (membersOf labels c)) with
  | [] => 0
  | m :: ms => ms.foldl min m

/-- Modelled from the spec: the silhouette-style score, the average over
all items of `(separation − cohesion) / max(separation, cohesion)`
(spec section 4.5). -/
def silhouetteScore (D : ℕ → ℕ → ℚ) (labels : List ℕ) : ℚ :=
  ((List.range labels.length).map (fun i =>
      (separation D labels i - cohesion D labels i) /
        max (separation D labels i) (cohesion D labels i))).sum /
    (labels.length : ℚ)

/-- Modelled from the spec: the ClusterValidator (`silhouette_score` in
`main` is an sklearn library call, not repository code).  Spec sections
4.5 and 7: the validity score is "undefined" when K = 1 or K = N (every
item alone); otherwise the silhouette-style score is produced. -/
def clusterValidator (D : ℕ → ℕ → ℚ) (labels : List ℕ) : Option ℚ :=
  if numClusters labels = 1 ∨ numClusters labels = labels.length then none
  else some (silhouetteScore D labels)

/-- Modelled from the spec: the step of `main` that pairs the flat cluster
assignment with the validity score.  Per spec section 7
(DegenerateClustering), clustering itself still succeeds and the
assignment is still returned even when the validity score is undefined. -/
def assignAndValidate (D : ℕ → ℕ → ℚ) (labels : List ℕ) :
    List ℕ × Option ℚ :=
  (labels, clusterValidator D labels)

/-! ### Basic facts about the point distance -/

theorem pdist_nonneg (p q : Pt) : 0 ≤ pdist p q :=
  Real.sqrt_nonneg _

theorem pdist_symm (p q : Pt) : pdist p q = pdist q p := by
  unfold pdist
  congr 1
  ring

theorem pdist_self (p : Pt) : pdist p p = 0 := by
  simp [pdist]

theorem pdist_eq_zero_iff (p q : Pt) : pdist p q = 0 ↔ p = q := by
  constructor
  · intro h
    unfold pdist at h
    have h0 : (0 : ℝ) ≤ ((p.1 : ℝ) - (q.1 : ℝ)) ^ 2 + ((p.2 : ℝ) - (q.2 : ℝ)) ^ 2 := by
      positivity
    have hsum : ((p.1 : ℝ) - (q.1 : ℝ)) ^ 2 + ((p.2 : ℝ) - (q.2 : ℝ)) ^ 2 = 0 :=
      (Real.sqrt_eq_zero h0).mp h
    have h1 : ((p.1 : ℝ) - (q.1 : ℝ)) = 0 := by
      nlinarith [sq_nonneg ((p.1 : ℝ) - (q.1 : ℝ)), sq_nonneg ((p.2 : ℝ) - (q.2 : ℝ))]
    have h2 : ((p.2 : ℝ) - (q.2 : ℝ)) = 0 := by
      nlinarith [sq_nonneg ((p.1 : ℝ) - (q.1 : ℝ)), sq_nonneg ((p.2 : ℝ) - (q.2 : ℝ))]
    have hx : p.1 = q.1 := by exact_mod_cast sub_eq_zero.mp h1
    have hy : p.2 = q.2 := by exact_mod_cast sub_eq_zero.mp h2
    exact Prod.ext hx hy
  · rintro rfl
    exact pdist_self p

/-! ### Facts about the Fréchet recursion -/

theorem frechet_c_nonneg (P Q : List Pt) (i j : ℕ) : 0 ≤ frechet_c P Q i j := by
  match i, j with
  | 0, 0 =>
    simp only [frechet_c]
    exact pdist_nonneg _ _
  | i + 1, 0 =>
    simp only [frechet_c]
    exact le_max_of_le_right (pdist_nonneg _ _)
  | 0, j + 1 =>
    simp only [frechet_c]
    exact le_max_of_le_right (pdist_nonneg _ _)
  | i + 1, j + 1 =>
    simp only [frechet_c]
    exact le_max_of_le_right (pdist_nonneg _ _)

theorem pdist_le_frechet_c (P Q : List Pt) (i j : ℕ) :
    pdist (P.getD i (0, 0)) (Q.getD j (0, 0)) ≤ frechet_c P Q i j := by
  match i, j with
  | 0, 0 => simp only [frechet_c]; exact le_refl _
  | i + 1, 0 => simp only [frechet_c]; exact le_max_right _ _
  | 0, j + 1 => simp only [frechet_c]; exact le_max_right _ _
  | i + 1, j + 1 => simp only [frechet_c]; exact le_max_right _ _

theorem frechet_c_symm_fuel (P Q : List Pt) :
    ∀ s i j, i + j ≤ s → frechet_c P Q i j = frechet_c Q P j i := by
  intro s
  induction s with
  | zero =>
    intro i j h
    obtain ⟨rfl, rfl⟩ : i = 0 ∧ j = 0 := by omega
    simp only [frechet_c]
    exact pdist_symm _ _
  | succ s ih =>
    intro i j h
    match i, j with
    | 0, 0 =>
      simp only [frechet_c]
      exact pdist_symm _ _
    | i + 1, 0 =>
      simp only [frechet_c]
      rw [ih i 0 (by omega), pdist_symm]
    | 0, j + 1 =>
      simp only [frechet_c]
      rw [ih 0 j (by omega), pdist_symm]
    | i + 1, j + 1 =>
      simp only [frechet_c]
      rw [ih i (j + 1) (by omega), ih (i + 1) j (by omega), ih i j (by omega),
        pdist_symm, min_left_comm]

theorem frechet_c_symm (P Q : List Pt) (i j : ℕ) :
    frechet_c P Q i j = frechet_c Q P j i :=
  frechet_c_symm_fuel P Q (i + j) i j (le_refl _)

theorem frechet_c_eq_ca_spec_fuel (P Q : List Pt) :
    ∀ s i j, i + j ≤ s → frechet_c P Q i j = ca_spec P Q i j := by
  intro s
  induction s with
  | zero =>
    intro i j h
    obtain ⟨rfl, rfl⟩ : i = 0 ∧ j = 0 := by omega
    simp only [frechet_c, ca_spec]
  | succ s ih =>
    intro i j h
    match i, j with
    | 0, 0 => simp only [frechet_c, ca_spec]
    | i + 1, 0 =>
      simp only [frechet_c, ca_spec]
      rw [ih i 0 (by omega)]
    | 0, j + 1 =>
      simp only [frechet_c, ca_spec]
      rw [ih 0 j (by omega)]
    | i + 1, j + 1 =>
      simp only [frechet_c, ca_spec]
      rw [ih i (j + 1) (by omega), ih (i + 1) j (by omega), ih i j (by omega)]

theorem frechet_c_eq_ca_spec (P Q : List Pt) (i j : ℕ) :
    frechet_c P Q i j = ca_spec P Q i j :=
  frechet_c_eq_ca_spec_fuel P Q (i + j) i j (le_refl _)

theorem discrete_frechet_nonneg (P Q : List Pt) : 0 ≤ discrete_frechet P Q :=
  frechet_c_nonneg P Q _ _

/-! ### Collapsing consecutive duplicates -/

theorem dedup_ne_nil (l : List Pt) (h : l ≠ []) : dedup l ≠ [] := by
  match l with
  | [a] => simp [dedup]
  | a :: b :: t =>
    simp only [dedup]
    split
    · exact dedup_ne_nil (b :: t) (by simp)
    · simp

theorem dedup_getLast? (l : List Pt) (h : l ≠ []) :
    (dedup l).getLast? = l.getLast? := by
  match l with
  | [a] => simp [dedup]
  | a :: b :: t =>
    rw [List.getLast?_cons_cons]
    simp only [dedup]
    split
    · exact dedup_getLast? (b :: t) (by simp)
    · have hne : dedup (b :: t) ≠ [] := dedup_ne_nil (b :: t) (by simp)
      match hd : dedup (b :: t) with
      | [] => exact absurd hd hne
      | c :: u =>
        rw [List.getLast?_cons_cons, ← hd, dedup_getLast? (b :: t) (by simp)]

theorem dedup_concat (l : List Pt) (a : Pt) (h : l ≠ []) :
    dedup (l ++ [a]) =
      if l.getLast? = some a then dedup l else dedup l ++ [a] := by
  match l with
  | [b] =>
    by_cases hba : b = a <;>
      simp [dedup, hba]
  | b :: c :: t =>
    have htail : (c :: t : List Pt) ≠ [] := by simp
    have hIH := dedup_concat (c :: t) a htail
    have hcons : (b :: c :: t) ++ [a] = b :: ((c :: t) ++ [a]) := by simp
    rw [hcons, List.getLast?_cons_cons]
    show dedup (b :: c :: (t ++ [a])) = _
    by_cases hbc : b = c
    · simp only [dedup, if_pos hbc]
      rw [show (c :: (t ++ [a])) = (c :: t) ++ [a] by simp, hIH]
    · simp only [dedup, if_neg hbc]
      rw [show (c :: (t ++ [a])) = (c :: t) ++ [a] by simp, hIH]
      split
      · rfl
      · simp

theorem take_succ_getD (l : List Pt) (n : ℕ) (h : n < l.length) :
    l.take (n + 1) = l.take n ++ [l.getD n (0, 0)] := by
  rw [List.take_succ, List.getElem?_eq_getElem h, List.getD_eq_getElem l _ h]
  rfl

theorem take_ne_nil (l : List Pt) (n : ℕ) (h : l ≠ []) : l.take (n + 1) ≠ [] := by
  simp [List.take_eq_nil_iff, h]

theorem take_getLast? (l : List Pt) (n : ℕ) (h : n < l.length) :
    (l.take (n + 1)).getLast? = some (l.getD n (0, 0)) := by
  rw [take_succ_getD l n h]
  exact List.getLast?_concat _

/-! ### A zero Fréchet distance characterized by dedup-equality -/

theorem max_eq_zero_of_nonneg {a b : ℝ} (ha : 0 ≤ a) (hb : 0 ≤ b)
    (h : max a b = 0) : a = 0 ∧ b = 0 :=
  ⟨le_antisymm (h ▸ le_max_left a b) ha, le_antisymm (h ▸ le_max_right a b) hb⟩

theorem min3_eq_zero {a b c : ℝ} (h : min a (min b c) = 0) :
    a = 0 ∨ b = 0 ∨ c = 0 := by
  rcases min_choice a (min b c) with h1 | h1
  · exact Or.inl (h1.symm.trans h)
  · rcases min_choice b c with h2 | h2
    · exact Or.inr (Or.inl (h2.symm.trans (h1.symm.trans h)))
    · exact Or.inr (Or.inr (h2.symm.trans (h1.symm.trans h)))

theorem frechet_zero_to_dedup (P Q : List Pt) :
    ∀ s i j, i + j ≤ s → i < P.length → j < Q.length →
      frechet_c P Q i j = 0 → dedup (P.take (i + 1)) = dedup (Q.take (j + 1)) := by
  intro s
  induction s with
  | zero =>
    intro i j hs hi hj h
    obtain ⟨rfl, rfl⟩ : i = 0 ∧ j = 0 := by omega
    simp only [frechet_c] at h
    have hpq := (pdist_eq_zero_iff _ _).mp h
    rw [take_succ_getD P 0 hi, take_succ_getD Q 0 hj, List.take_zero,
      List.take_zero, List.nil_append, List.nil_append, hpq]
  | succ s ih =>
    intro i j hs hi hj h
    have hPne : P ≠ [] := List.ne_nil_of_length_pos (by omega)
    have hQne : Q ≠ [] := List.ne_nil_of_length_pos (by omega)
    match i, j with
    | 0, 0 =>
      simp only [frechet_c] at h
      have hpq := (pdist_eq_zero_iff _ _).mp h
      rw [take_succ_getD P 0 hi, take_succ_getD Q 0 hj, List.take_zero,
        List.take_zero, List.nil_append, List.nil_append, hpq]
    | i + 1, 0 =>
      simp only [frechet_c] at h
      obtain ⟨h1, h2⟩ :=
        max_eq_zero_of_nonneg (frechet_c_nonneg P Q i 0) (pdist_nonneg _ _) h
      have hi' : i < P.length := by omega
      have IH := ih i 0 (by omega) hi' hj h1
      have hlast : (P.take (i + 1)).getLast? = (Q.take 1).getLast? := by
        rw [← dedup_getLast? _ (take_ne_nil P i hPne), IH,
          dedup_getLast? _ (take_ne_nil Q 0 hQne)]
      rw [take_getLast? P i hi', take_getLast? Q 0 hj] at hlast
      have hPi : P.getD i (0, 0) = Q.getD 0 (0, 0) := Option.some.inj hlast
      have hP1 : P.getD (i + 1) (0, 0) = Q.getD 0 (0, 0) :=
        (pdist_eq_zero_iff _ _).mp h2
      rw [take_succ_getD P (i + 1) hi, dedup_concat _ _ (take_ne_nil P i hPne),
        take_getLast? P i hi', if_pos (by rw [hPi, hP1])]
      exact IH
    | 0, j + 1 =>
      simp only [frechet_c] at h
      obtain ⟨h1, h2⟩ :=
        max_eq_zero_of_nonneg (frechet_c_nonneg P Q 0 j) (pdist_nonneg _ _) h
      have hj' : j < Q.length := by omega
      have IH := ih 0 j (by omega) hi hj' h1
      have hlast : (P.take 1).getLast? = (Q.take (j + 1)).getLast? := by
        rw [← dedup_getLast? _ (take_ne_nil P 0 hPne), IH,
          dedup_getLast? _ (take_ne_nil Q j hQne)]
      rw [take_getLast? P 0 hi, take_getLast? Q j hj'] at hlast
      have hQj : P.getD 0 (0, 0) = Q.getD j (0, 0) := Option.some.inj hlast
      have hQ1 : P.getD 0 (0, 0) = Q.getD (j + 1) (0, 0) :=
        (pdist_eq_zero_iff _ _).mp h2
      rw [take_succ_getD Q (j + 1) hj, dedup_concat _ _ (take_ne_nil Q j hQne),
        take_getLast? Q j hj', if_pos (by rw [← hQj, hQ1])]
      exact IH
    | i + 1, j + 1 =>
      simp only [frechet_c] at h
      have hm0 : 0 ≤ min (frechet_c P Q i (j + 1))
          (min (frechet_c P Q (i + 1) j) (frechet_c P Q i j)) :=
        le_min (frechet_c_nonneg _ _ _ _)
          (le_min (frechet_c_nonneg _ _ _ _) (frechet_c_nonneg _ _ _ _))
      obtain ⟨hmin, hd⟩ := max_eq_zero_of_nonneg hm0 (pdist_nonneg _ _) h
      have hP1Q1 : P.getD (i + 1) (0, 0) = Q.getD (j + 1) (0, 0) :=
        (pdist_eq_zero_iff _ _).mp hd
      have hi' : i < P.length := by omega
      have hj' : j < Q.length := by omega
      rcases min3_eq_zero hmin with h0 | h0 | h0
      · have IH := ih i (j + 1) (by omega) hi' hj h0
        have hlast : (P.take (i + 1)).getLast? = (Q.take (j + 2)).getLast? := by
          rw [← dedup_getLast? _ (take_ne_nil P i hPne), IH,
            dedup_getLast? _ (take_ne_nil Q (j + 1) hQne)]
        rw [take_getLast? P i hi', take_getLast? Q (j + 1) hj] at hlast
        have hPi : P.getD i (0, 0) = Q.getD (j + 1) (0, 0) := Option.some.inj hlast
        rw [take_succ_getD P (i + 1) hi, dedup_concat _ _ (take_ne_nil P i hPne),
          take_getLast? P i hi', if_pos (by rw [hPi, hP1Q1])]
        exact IH
      · have IH := ih (i + 1) j (by omega) hi hj' h0
        have hlast : (P.take (i + 2)).getLast? = (Q.take (j + 1)).getLast? := by
          rw [← dedup_getLast? _ (take_ne_nil P (i + 1) hPne), IH,
            dedup_getLast? _ (take_ne_nil Q j hQne)]
        rw [take_getLast? P (i + 1) hi, take_getLast? Q j hj'] at hlast
        have hQj : P.getD (i + 1) (0, 0) = Q.getD j (0, 0) := Option.some.inj hlast
        rw [take_succ_getD Q (j + 1) hj, dedup_concat _ _ (take_ne_nil Q j hQne),
          take_getLast? Q j hj', if_pos (by rw [← hQj, hP1Q1])]
        exact IH
      · have IH := ih i j (by omega) hi' hj' h0
        have hlast : (P.take (i + 1)).getLast? = (Q.take (j + 1)).getLast? := by
          rw [← dedup_getLast? _ (take_ne_nil P i hPne), IH,
            dedup_getLast? _ (take_ne_nil Q j hQne)]
        rw [take_getLast? P i hi', take_getLast? Q j hj'] at hlast
        have hij : P.getD i (0, 0) = Q.getD j (0, 0) := Option.some.inj hlast
        rw [take_succ_getD P (i + 1) hi, take_succ_getD Q (j + 1) hj,
          dedup_concat _ _ (take_ne_nil P i hPne),
          dedup_concat _ _ (take_ne_nil Q j hQne),
          take_getLast? P i hi', take_getLast? Q j hj', hij, hP1Q1]
        by_cases hc : (some (Q.getD j (0, 0)) : Option Pt) = some (Q.getD (j + 1) (0, 0))
        · rw [if_pos hc, if_pos hc]
          exact IH
        · rw [if_neg hc, if_neg hc, IH]

theorem dedup_to_frechet_zero (P Q : List Pt) :
    ∀ s i j, i + j ≤ s → i < P.length → j < Q.length →
      dedup (P.take (i + 1)) = dedup (Q.take (j + 1)) → frechet_c P Q i j = 0 := by
  intro s
  induction s with
  | zero =>
    intro i j hs hi hj h
    obtain ⟨rfl, rfl⟩ : i = 0 ∧ j = 0 := by omega
    rw [take_succ_getD P 0 hi, take_succ_getD Q 0 hj, List.take_zero,
      List.take_zero, List.nil_append, List.nil_append] at h
    simp only [dedup, List.cons.injEq, and_true] at h
    simp only [frechet_c]
    exact (pdist_eq_zero_iff _ _).mpr h
  | succ s ih =>
    intro i j hs hi hj h
    have hPne : P ≠ [] := List.ne_nil_of_length_pos (by omega)
    have hQne : Q ≠ [] := List.ne_nil_of_length_pos (by omega)
    have hlast : (P.take (i + 1)).getLast? = (Q.take (j + 1)).getLast? := by
      rw [← dedup_getLast? _ (take_ne_nil P i hPne), h,
        dedup_getLast? _ (take_ne_nil Q j hQne)]
    rw [take_getLast? P i hi, take_getLast? Q j hj] at hlast
    have hij : P.getD i (0, 0) = Q.getD j (0, 0) := Option.some.inj hlast
    match i, j with
    | 0, 0 =>
      simp only [frechet_c]
      exact (pdist_eq_zero_iff _ _).mpr hij
    | i + 1, 0 =>
      have hi' : i < P.length := by omega
      rw [take_succ_getD P (i + 1) hi, dedup_concat _ _ (take_ne_nil P i hPne),
        take_getLast? P i hi'] at h
      by_cases hc : (some (P.getD i (0, 0)) : Option Pt) = some (P.getD (i + 1) (0, 0))
      · rw [if_pos hc] at h
        have h0 := ih i 0 (by omega) hi' hj h
        simp only [frechet_c]
        rw [h0, (pdist_eq_zero_iff _ _).mpr hij]
        exact max_self 0
      · rw [if_neg hc] at h
        rw [take_succ_getD Q 0 hj, List.take_zero, List.nil_append] at h
        simp only [dedup] at h
        have hlen := congrArg List.length h
        simp only [List.length_append, List.length_cons, List.length_nil] at hlen
        have hX : (dedup (P.take (i + 1))).length = 0 := by omega
        exact absurd (List.length_eq_zero.mp hX)
          (dedup_ne_nil _ (take_ne_nil P i hPne))
    | 0, j + 1 =>
      have hj' : j < Q.length := by omega
      rw [take_succ_getD Q (j + 1) hj, dedup_concat _ _ (take_ne_nil Q j hQne),
        take_getLast? Q j hj'] at h
      by_cases hc : (some (Q.getD j (0, 0)) : Option Pt) = some (Q.getD (j + 1) (0, 0))
      · rw [if_pos hc] at h
        have h0 := ih 0 j (by omega) hi hj' h
        simp only [frechet_c]
        rw [h0, (pdist_eq_zero_iff _ _).mpr hij]
        exact max_self 0
      · rw [if_neg hc] at h
        rw [take_succ_getD P 0 hi, List.take_zero, List.nil_append] at h
        simp only [dedup] at h
        have hlen := congrArg List.length h
        simp only [List.length_append, List.length_cons, List.length_nil] at hlen
        have hX : (dedup (Q.take (j + 1))).length = 0 := by omega
        exact absurd (List.length_eq_zero.mp hX)
          (dedup_ne_nil _ (take_ne_nil Q j hQne))
    | i + 1, j + 1 =>
      have hi' : i < P.length := by omega
      have hj' : j < Q.length := by omega
      have hd : pdist (P.getD (i + 1) (0, 0)) (Q.getD (j + 1) (0, 0)) = 0 :=
        (pdist_eq_zero_iff _ _).mpr hij
      simp only [frechet_c]
      by_cases hcP : (some (P.getD i (0, 0)) : Option Pt) = some (P.getD (i + 1) (0, 0))
      · have hPc : dedup (P.take (i + 2)) = dedup (P.take (i + 1)) := by
          rw [take_succ_getD P (i + 1) hi, dedup_concat _ _ (take_ne_nil P i hPne),
            take_getLast? P i hi', if_pos hcP]
        have h0 := ih i (j + 1) (by omega) hi' hj (hPc.symm.trans h)
        have hm : min (frechet_c P Q i (j + 1))
            (min (frechet_c P Q (i + 1) j) (frechet_c P Q i j)) = 0 := by
          rw [h0]
          exact min_eq_left (le_min (frechet_c_nonneg _ _ _ _) (frechet_c_nonneg _ _ _ _))
        rw [hm, hd]
        exact max_self 0
      · by_cases hcQ : (some (Q.getD j (0, 0)) : Option Pt) = some (Q.getD (j + 1) (0, 0))
        · have hQc : dedup (Q.take (j + 2)) = dedup (Q.take (j + 1)) := by
            rw [take_succ_getD Q (j + 1) hj, dedup_concat _ _ (take_ne_nil Q j hQne),
              take_getLast? Q j hj', if_pos hcQ]
          have h0 := ih (i + 1) j (by omega) hi hj' (h.trans hQc)
          have hm : min (frechet_c P Q i (j + 1))
              (min (frechet_c P Q (i + 1) j) (frechet_c P Q i j)) = 0 := by
            rw [h0, min_eq_left (frechet_c_nonneg P Q i j)]
            exact min_eq_right (frechet_c_nonneg P Q i (j + 1))
          rw [hm, hd]
          exact max_self 0
        · have hPc : dedup (P.take (i + 2)) =
              dedup (P.take (i + 1)) ++ [P.getD (i + 1) (0, 0)] := by
            rw [take_succ_getD P (i + 1) hi, dedup_concat _ _ (take_ne_nil P i hPne),
              take_getLast? P i hi', if_neg hcP]
          have hQc : dedup (Q.take (j + 2)) =
              dedup (Q.take (j + 1)) ++ [Q.getD (j + 1) (0, 0)] := by
            rw [take_succ_getD Q (j + 1) hj, dedup_concat _ _ (take_ne_nil Q j hQne),
              take_getLast? Q j hj', if_neg hcQ]
          have h' := hPc.symm.trans (h.trans hQc)
          rw [hij] at h'
          have h0 := ih i j (by omega) hi' hj' (List.append_cancel_right h')
          have hm : min (frechet_c P Q i (j + 1))
              (min (frechet_c P Q (i + 1) j) (frechet_c P Q i j)) = 0 := by
            rw [h0, min_eq_right (frechet_c_nonneg P Q (i + 1) j)]
            exact min_eq_right (frechet_c_nonneg P Q i (j + 1))
          rw [hm, hd]
          exact max_self 0

theorem discrete_frechet_eq_zero_iff_dedup (P Q : List Pt)
    (hP : P ≠ []) (hQ : Q ≠ []) :
    (discrete_frechet P Q = 0 ↔ dedup P = dedup Q) := by
  have hPl : 0 < P.length := List.length_pos.mpr hP
  have hQl : 0 < Q.length := List.length_pos.mpr hQ
  have hi : P.length - 1 < P.length := by omega
  have hj : Q.length - 1 < Q.length := by omega
  have htP : P.take (P.length - 1 + 1) = P := by
    rw [show P.length - 1 + 1 = P.length by omega]
    exact List.take_length P
  have htQ : Q.take (Q.length - 1 + 1) = Q := by
    rw [show Q.length - 1 + 1 = Q.length by omega]
    exact List.take_length Q
  constructor
  · intro h
    have hded := frechet_zero_to_dedup P Q (P.length + Q.length)
      (P.length - 1) (Q.length - 1) (by omega) hi hj h
    rwa [htP, htQ] at hded
  · intro h
    exact dedup_to_frechet_zero P Q (P.length + Q.length)
      (P.length - 1) (Q.length - 1) (by omega) hi hj (by rw [htP, htQ]; exact h)

theorem discrete_frechet_self_eq_zero (P : List Pt) (hP : P ≠ []) :
    discrete_frechet P P = 0 :=
  (discrete_frechet_eq_zero_iff_dedup P P hP hP).mpr rfl

/-! ### Facts about the angle unwrap -/

theorem unwrapAux_length (l : List ℚ) :
    ∀ last offset, (unwrapAux last offset l).length = l.length := by
  induction l with
  | nil => intro _ _; rfl
  | cons c rest ih =>
    intro last offset
    simp only [unwrapAux, List.length_cons, ih]

theorem stepOffset_bound (offset last curr lastCurr : ℚ)
    (hc : |curr| ≤ 180) (hl : |lastCurr| ≤ 180) (hinv : last = lastCurr + offset) :
    |curr + stepOffset offset last curr - last| ≤ 180 := by
  have h1 := abs_le.mp hc
  have h2 := abs_le.mp hl
  simp only [stepOffset]
  split_ifs with ha hb
  · rw [abs_le]
    exact ⟨by linarith, by linarith⟩
  · rw [abs_le]
    exact ⟨by linarith, by linarith⟩
  · rw [abs_le]
    exact ⟨by linarith [not_lt.mp hb], by linarith [not_lt.mp ha]⟩

theorem unwrapAux_chain (rest : List ℚ) :
    ∀ last offset lastCurr, (∀ x ∈ rest, |x| ≤ 180) → |lastCurr| ≤ 180 →
      last = lastCurr + offset →
      List.Chain' (fun a b => |b - a| ≤ 180) (last :: unwrapAux last offset rest) := by
  induction rest with
  | nil => intro _ _ _ _ _ _; simp [unwrapAux]
  | cons curr rest ih =>
    intro last offset lastCurr hb hlc hinv
    simp only [unwrapAux]
    have hcurr : |curr| ≤ 180 := hb curr (by simp)
    refine List.chain'_cons.mpr ⟨?_, ?_⟩
    · exact stepOffset_bound offset last curr lastCurr hcurr hlc hinv
    · exact ih (curr + stepOffset offset last curr) (stepOffset offset last curr)
        curr (fun x hx => hb x (by simp [hx])) hcurr rfl

theorem unwrap_deg_chain (l : List ℚ) (hb : ∀ x ∈ l, |x| ≤ 180) :
    List.Chain' (fun a b => |b - a| ≤ 180) (unwrap_deg l) := by
  match l with
  | [] => simp [unwrap_deg]
  | a :: rest =>
    simp only [unwrap_deg]
    exact unwrapAux_chain rest a 0 a (fun x hx => hb x (by simp [hx]))
      (hb a (by simp)) (by ring)

theorem unwrapAux_const (c offset : ℚ) :
    ∀ n, unwrapAux (c + offset) offset (List.replicate n c) =
      List.replicate n (c + offset) := by
  intro n
  induction n with
  | zero => rfl
  | succ n ih =>
    simp only [List.replicate_succ, unwrapAux]
    have hstep : stepOffset offset (c + offset) c = offset := by
      simp only [stepOffset]
      rw [show c + offset - (c + offset) = 0 by ring]
      norm_num
    rw [hstep, ih]

theorem unwrap_deg_replicate (c : ℚ) (n : ℕ) :
    unwrap_deg (List.replicate n c) = List.replicate n c := by
  match n with
  | 0 => rfl
  | n + 1 =>
    simp only [List.replicate_succ, unwrap_deg]
    have hc := unwrapAux_const c 0 n
    rw [add_zero] at hc
    rw [hc]

theorem stepOffset_tie (offset last curr : ℚ)
    (h : curr + offset - last = 180 ∨ curr + offset - last = -180) :
    stepOffset offset last curr = offset := by
  simp only [stepOffset]
  rcases h with h | h <;> rw [h] <;> norm_num

/-! ### Facts about load_and_process -/

theorem flipIfNeg_zero_head (l : List ℚ) : ∃ t, flipIfNeg (0 :: l) = 0 :: t := by
  unfold flipIfNeg
  split
  · exact ⟨l.map (fun d => -d), by simp⟩
  · exact ⟨l, rfl⟩

theorem survivors_head (xs ys : List ℚ) (x0 y0 : ℚ)
    (hx : xs.head? = some x0) (hy : ys.head? = some y0) :
    (survivors xs ys x0 y0).head? = some (0, 0) := by
  match xs, ys with
  | a :: xs', b :: ys' =>
    rw [List.head?_cons, Option.some.injEq] at hx hy
    subst hx hy
    simp only [survivors, rawPoints, List.map_cons, sub_self]
    obtain ⟨t1, h1⟩ := flipIfNeg_zero_head (xs'.map (fun x => x - a))
    obtain ⟨t2, h2⟩ := flipIfNeg_zero_head (ys'.map (fun y => y - b))
    rw [h1, h2, List.zip_cons_cons, List.filter_cons_of_pos (by decide)]
    rfl
  | [], _ => simp at hx
  | _ :: _, [] => simp at hy

theorem survivors_mem_nonneg (xs ys : List ℚ) (x0 y0 : ℚ) (p : Pt)
    (hp : p ∈ survivors xs ys x0 y0) : 0 ≤ p.1 ∧ 0 ≤ p.2 := by
  have := (List.mem_filter.mp hp).2
  simp only [Bool.and_eq_true, decide_eq_true_eq] at this
  exact this

/-! ### Facts about the distance matrix -/

theorem distMatrix_symm (trajs : List (List Pt)) (i j : ℕ) :
    distMatrix trajs i j = distMatrix trajs j i := by
  unfold distMatrix
  split_ifs <;> first | rfl | omega

theorem distMatrix_diag (trajs : List (List Pt)) (i : ℕ) :
    distMatrix trajs i i = 0 := by
  simp [distMatrix]

theorem distMatrix_mirror (trajs : List (List Pt)) (i j : ℕ) (hij : i < j) :
    distMatrix trajs i j = discrete_frechet (trajs.getD i []) (trajs.getD j []) ∧
      distMatrix trajs j i = discrete_frechet (trajs.getD i []) (trajs.getD j []) := by
  constructor
  · unfold distMatrix
    rw [if_pos hij]
  · unfold distMatrix
    rw [if_neg (by omega), if_pos hij]

theorem distMatrix_nonneg (trajs : List (List Pt)) (i j : ℕ) :
    0 ≤ distMatrix trajs i j := by
  unfold distMatrix
  split_ifs
  · exact discrete_frechet_nonneg _ _
  · exact discrete_frechet_nonneg _ _
  · exact le_refl 0

/-! ### The claims -/

/-- C1: for all non-empty 2-D point sequences `P` (length n) and `Q`
(length m), `discrete_frechet P Q` returns `ca[n-1][m-1]` of the reference
recurrence of the specification, and the result is a single non-negative
real number. -/
theorem discrete_frechet_matches_reference (P Q : List Pt)
    (hP : P ≠ []) (hQ : Q ≠ []) :
    discrete_frechet P Q = ca_spec P Q (P.length - 1) (Q.length - 1) ∧
      0 ≤ discrete_frechet P Q :=
  ⟨frechet_c_eq_ca_spec P Q (P.length - 1) (Q.length - 1),
    discrete_frechet_nonneg P Q⟩

/-- Witness for C1 at the concrete one-point sequences `[(0,0)]`, `[(0,1)]`. -/
theorem discrete_frechet_matches_reference_witness :
    discrete_frechet [((0 : ℚ), (0 : ℚ))] [((0 : ℚ), (1 : ℚ))] =
        ca_spec [((0 : ℚ), (0 : ℚ))] [((0 : ℚ), (1 : ℚ))] 0 0 ∧
      0 ≤ discrete_frechet [((0 : ℚ), (0 : ℚ))] [((0 : ℚ), (1 : ℚ))] :=
  discrete_frechet_matches_reference _ _ (by decide) (by decide)

/-- Counterexample to C2 as stated: the distance between `[(0,0)]` and
`[(0,0),(0,0)]` is zero although the two sequences are not identical. -/
theorem discrete_frechet_zero_not_identical :
    discrete_frechet [((0 : ℚ), (0 : ℚ))] [((0 : ℚ), (0 : ℚ)), ((0 : ℚ), (0 : ℚ))] = 0 ∧
      ([((0 : ℚ), (0 : ℚ))] : List Pt) ≠ [((0 : ℚ), (0 : ℚ)), ((0 : ℚ), (0 : ℚ))] :=
  ⟨(discrete_frechet_eq_zero_iff_dedup _ _ (by decide) (by decide)).mpr (by decide),
    by decide⟩

/-- C2 (amended): for all non-empty point sequences `P` and `Q`,
`discrete_frechet P Q` is zero exactly when `P` and `Q` are identical
after collapsing consecutive duplicate points; in particular
`discrete_frechet P P = 0`. -/
theorem discrete_frechet_zero_characterization (P Q : List Pt)
    (hP : P ≠ []) (hQ : Q ≠ []) :
    (discrete_frechet P Q = 0 ↔ dedup P = dedup Q) ∧
      discrete_frechet P P = 0 :=
  ⟨discrete_frechet_eq_zero_iff_dedup P Q hP hQ,
    discrete_frechet_self_eq_zero P hP⟩

/-- Witness for C2 (amended) at `P = [(0,0),(1,1)]`, `Q = [(0,0)]`. -/
theorem discrete_frechet_zero_characterization_witness :
    (discrete_frechet [((0 : ℚ), (0 : ℚ)), ((1 : ℚ), (1 : ℚ))] [((0 : ℚ), (0 : ℚ))] = 0 ↔
        dedup [((0 : ℚ), (0 : ℚ)), ((1 : ℚ), (1 : ℚ))] = dedup [((0 : ℚ), (0 : ℚ))]) ∧
      discrete_frechet [((0 : ℚ), (0 : ℚ)), ((1 : ℚ), (1 : ℚ))]
        [((0 : ℚ), (0 : ℚ)), ((1 : ℚ), (1 : ℚ))] = 0 :=
  discrete_frechet_zero_characterization _ _ (by decide) (by decide)

/-- C3: for all non-empty point sequences `P` and `Q`,
`discrete_frechet P Q = discrete_frechet Q P` (exact equality in exact
real arithmetic). -/
theorem discrete_frechet_comm (P Q : List Pt) (hP : P ≠ []) (hQ : Q ≠ []) :
    discrete_frechet P Q = discrete_frechet Q P :=
  frechet_c_symm P Q (P.length - 1) (Q.length - 1)

/-- Witness for C3 at `P = [(0,0),(1,0)]`, `Q = [(2,3)]`. -/
theorem discrete_frechet_comm_witness :
    discrete_frechet [((0 : ℚ), (0 : ℚ)), ((1 : ℚ), (0 : ℚ))] [((2 : ℚ), (3 : ℚ))] =
      discrete_frechet [((2 : ℚ), (3 : ℚ))] [((0 : ℚ), (0 : ℚ)), ((1 : ℚ), (0 : ℚ))] :=
  discrete_frechet_comm _ _ (by decide) (by decide)

/-- C4: when the achieved cluster count K equals 1 or equals N (the
number of items), the validity-score step signals "undefined" (no
numeric value), while the cluster assignment is still returned. -/
theorem degenerate_validity_undefined (D : ℕ → ℕ → ℚ) (labels : List ℕ)
    (h : numClusters labels = 1 ∨ numClusters labels = labels.length) :
    assignAndValidate D labels = (labels, none) := by
  unfold assignAndValidate clusterValidator
  rw [if_pos h]

/-- Witness for C4: with N = 2 items and K = 2 (each its own singleton
cluster), the validator reports "undefined" and the assignment is kept. -/
theorem degenerate_validity_undefined_witness :
    assignAndValidate (fun _ _ => 1) [1, 2] = ([1, 2], none) :=
  degenerate_validity_undefined (fun _ _ => 1) [1, 2] (by decide)

/-- C5: for a collection of N ≥ 2 trajectories, the built distance matrix
is symmetric with zero diagonal; for `i < j` the value
`discrete_frechet(trajs[i], trajs[j])` is mirrored into both cells, and
every entry is non-negative. -/
theorem distMatrix_invariants (trajs : List (List Pt))
    (hN : 2 ≤ trajs.length) (i j : ℕ)
    (hi : i < trajs.length) (hj : j < trajs.length) :
    distMatrix trajs i j = distMatrix trajs j i ∧
      distMatrix trajs i i = 0 ∧
      (i < j →
        distMatrix trajs i j =
            discrete_frechet (trajs.getD i []) (trajs.getD j []) ∧
          distMatrix trajs j i =
            discrete_frechet (trajs.getD i []) (trajs.getD j [])) ∧
      0 ≤ distMatrix trajs i j :=
  ⟨distMatrix_symm trajs i j, distMatrix_diag trajs i,
    fun hij => distMatrix_mirror trajs i j hij, distMatrix_nonneg trajs i j⟩

/-- Witness for C5 at two concrete trajectories and cells (0, 1). -/
theorem distMatrix_invariants_witness :
    distMatrix [[((0 : ℚ), (0 : ℚ)), ((1 : ℚ), (0 : ℚ))],
        [((0 : ℚ), (0 : ℚ)), ((0 : ℚ), (1 : ℚ))]] 0 1 =
      distMatrix [[((0 : ℚ), (0 : ℚ)), ((1 : ℚ), (0 : ℚ))],
        [((0 : ℚ), (0 : ℚ)), ((0 : ℚ), (1 : ℚ))]] 1 0 ∧
    distMatrix [[((0 : ℚ), (0 : ℚ)), ((1 : ℚ), (0 : ℚ))],
        [((0 : ℚ), (0 : ℚ)), ((0 : ℚ), (1 : ℚ))]] 0 0 = 0 ∧
    ((0 : ℕ) < 1 →
      distMatrix [[((0 : ℚ), (0 : ℚ)), ((1 : ℚ), (0 : ℚ))],
          [((0 : ℚ), (0 : ℚ)), ((0 : ℚ), (1 : ℚ))]] 0 1 =
        discrete_frechet [((0 : ℚ), (0 : ℚ)), ((1 : ℚ), (0 : ℚ))]
          [((0 : ℚ), (0 : ℚ)), ((0 : ℚ), (1 : ℚ))] ∧
      distMatrix [[((0 : ℚ), (0 : ℚ)), ((1 : ℚ), (0 : ℚ))],
          [((0 : ℚ), (0 : ℚ)), ((0 : ℚ), (1 : ℚ))]] 1 0 =
        discrete_frechet [((0 : ℚ), (0 : ℚ)), ((1 : ℚ), (0 : ℚ))]
          [((0 : ℚ), (0 : ℚ)), ((0 : ℚ), (1 : ℚ))]) ∧
    0 ≤ distMatrix [[((0 : ℚ), (0 : ℚ)), ((1 : ℚ), (0 : ℚ))],
        [((0 : ℚ), (0 : ℚ)), ((0 : ℚ), (1 : ℚ))]] 0 1 := by
  have h := distMatrix_invariants
    [[((0 : ℚ), (0 : ℚ)), ((1 : ℚ), (0 : ℚ))],
      [((0 : ℚ), (0 : ℚ)), ((0 : ℚ), (1 : ℚ))]]
    (by decide) 0 1 (by decide) (by decide)
  simpa using h

/-- C6: `unwrap_deg` applies an offset correction only on strict
inequality — a consecutive difference of exactly +180 or −180 causes no
correction — and on the raw angle sequence `[170, -170, 170]` it produces
exactly `[170, 190, 170]`. -/
theorem unwrap_tie_no_correction_and_example :
    (∀ offset last curr : ℚ,
        curr + offset - last = 180 ∨ curr + offset - last = -180 →
        stepOffset offset last curr = offset) ∧
      unwrap_deg [170, -170, 170] = [170, 190, 170] :=
  ⟨fun offset last curr h => stepOffset_tie offset last curr h,
    by norm_num [unwrap_deg, unwrapAux, stepOffset]⟩

/-- Witness for C6 at `offset = 0`, `last = 10`, `curr = 190` (difference
exactly +180, so no correction). -/
theorem unwrap_tie_no_correction_and_example_witness :
    stepOffset 0 10 190 = 0 :=
  unwrap_tie_no_correction_and_example.1 0 10 190 (Or.inl (by norm_num))

/-- C7: for every angle list with all elements in `[-180, 180]`, no two
consecutive elements of the unwrapped output differ by more than 180 in
absolute value; and unwrapping a constant list returns it unchanged. -/
theorem unwrap_no_large_jumps (l : List ℚ)
    (hb : ∀ x ∈ l, -180 ≤ x ∧ x ≤ 180) :
    List.Chain' (fun a b => |b - a| ≤ 180) (unwrap_deg l) ∧
      ∀ (c : ℚ) (n : ℕ), unwrap_deg (List.replicate n c) = List.replicate n c :=
  ⟨unwrap_deg_chain l (fun x hx => abs_le.mpr (hb x hx)),
    fun c n => unwrap_deg_replicate c n⟩

/-- Witness for C7 at the list `[170, -170]`. -/
theorem unwrap_no_large_jumps_witness :
    List.Chain' (fun a b => |b - a| ≤ 180) (unwrap_deg [170, -170]) ∧
      ∀ (c : ℚ) (n : ℕ), unwrap_deg (List.replicate n c) = List.replicate n c :=
  unwrap_no_large_jumps [170, -170] (by decide)

/-- C8: whenever `load_and_process` returns a trajectory, it has at least
2 points, its first point is `(0, 0)`, every point (in particular the
last) is non-negative on both axes, and the surviving points appear in
their original order (the trajectory is a sublist of the flipped delta
sequence). -/
theorem load_traj_invariants (rows : List (Option ℚ × Option ℚ)) (pts : List Pt)
    (h : load_and_process rows = .traj pts) :
    2 ≤ pts.length ∧ pts.head? = some (0, 0) ∧
      (∀ p ∈ pts, 0 ≤ p.1 ∧ 0 ≤ p.2) ∧
      pts.Sublist (rawPoints (readRows rows).1 (unwrap_deg (readRows rows).2)
        ((readRows rows).1.headD 0) ((unwrap_deg (readRows rows).2).headD 0)) := by
  simp only [load_and_process] at h
  split at h
  · simp at h
  next hlen =>
    split at h
    next x0 y0 hx hy =>
      split at h
      · simp at h
      next hlen2 =>
        injection h with h
        subst h
        have hx0 : (readRows rows).1.headD 0 = x0 := by
          rw [List.headD_eq_head?, hx]
          rfl
        have hy0 : (unwrap_deg (readRows rows).2).headD 0 = y0 := by
          rw [List.headD_eq_head?, hy]
          rfl
        refine ⟨by omega, survivors_head _ _ _ _ hx hy,
          fun p hp => survivors_mem_nonneg _ _ _ _ p hp, ?_⟩
        rw [hx0, hy0]
        exact List.filter_sublist _
    · simp at h

/-- Witness for C8 at the rows `[(0, 0), (1, 1)]` (all parseable). -/
theorem load_traj_invariants_witness :
    2 ≤ ([((0 : ℚ), (0 : ℚ)), ((1 : ℚ), (1 : ℚ))] : List Pt).length ∧
      ([((0 : ℚ), (0 : ℚ)), ((1 : ℚ), (1 : ℚ))] : List Pt).head? = some (0, 0) ∧
      (∀ p ∈ ([((0 : ℚ), (0 : ℚ)), ((1 : ℚ), (1 : ℚ))] : List Pt),
        0 ≤ p.1 ∧ 0 ≤ p.2) ∧
      ([((0 : ℚ), (0 : ℚ)), ((1 : ℚ), (1 : ℚ))] : List Pt).Sublist
        (rawPoints (readRows [(some 0, some 0), (some 1, some 1)]).1
          (unwrap_deg (readRows [(some 0, some 0), (some 1, some 1)]).2)
          ((readRows [(some 0, some 0), (some 1, some 1)]).1.headD 0)
          ((unwrap_deg (readRows [(some 0, some 0), (some 1, some 1)]).2).headD 0)) :=
  load_traj_invariants [(some 0, some 0), (some 1, some 1)] [(0, 0), (1, 1)]
    (by norm_num [load_and_process, readRows, survivors, rawPoints, flipIfNeg,
      unwrap_deg, unwrapAux, stepOffset])

/-- C9 (code bug): on an input with two rows whose first value parses but
whose second does not (zero fully valid samples), `load_and_process`
raises an uncaught IndexError at `ys[0]` instead of returning None. -/
theorem load_crashes_on_all_y_unparsable :
    load_and_process [(some 1, none), (some 2, none)] = .indexError := by
  decide

/-- C10: `unwrap_deg` maps the empty list to the empty list, and every
non-empty list to a list of the same length with the same first
element. -/
theorem unwrap_length_and_head :
    unwrap_deg [] = [] ∧
      ∀ l : List ℚ, l ≠ [] →
        (unwrap_deg l).length = l.length ∧ (unwrap_deg l).head? = l.head? := by
  refine ⟨rfl, ?_⟩
  intro l hl
  match l with
  | a :: rest =>
    refine ⟨?_, ?_⟩
    · simp only [unwrap_deg, List.length_cons, unwrapAux_length]
    · simp [unwrap_deg]

/-- Witness for C10 at the list `[5]`. -/
theorem unwrap_length_and_head_witness :
    (unwrap_deg [5]).length = ([5] : List ℚ).length ∧
      (unwrap_deg [5]).head? = ([5] : List ℚ).head? :=
  unwrap_length_and_head.2 [5] (by decide)

end AimTraj
